import Mathlib

/-!
Shallow embedding of the falling-sand simulation in `src/main.rs`
(`Particle`, `ConwayGrid` and its methods), together with theorems about
the update rule, drawing, bounds handling and initialization.

Machine integers are modelled as `Nat`/`Int`: `u8` heat only ever takes
values reached by `saturating_sub` and assignment of 255, both of which
are exact on `Nat`; `usize` indices become `Nat`; `isize` coordinates
become `Int`.  The grid's cell vector is a `List Particle`, with reads
`cellAt` (Rust indexing, always in bounds where the code reads) and
in-place writes `List.set`.
-/

/-- The per-cell state, from `struct Particle` in `src/main.rs`:
`active`, the transient guard `already_updated`, and the `heat : u8`
trail value. -/
structure Particle where
  active : Bool
  already_updated : Bool
  heat : Nat
deriving Repr, DecidableEq

instance : Inhabited Particle := ⟨⟨false, false, 0⟩⟩

/-- `Particle::new`: heat starts at 0 regardless of `active`. -/
def Particle.new (active already_updated : Bool) : Particle :=
  { active := active, already_updated := already_updated, heat := 0 }

/-- `Particle::next_state`: set `active`; if now active force heat to 255,
otherwise decrement heat by 1 saturating at 0 (`u8::saturating_sub`). -/
def Particle.next_state (p : Particle) (active : Bool) : Particle :=
  if active then { p with active := active, heat := 255 }
  else { p with active := active, heat := p.heat - 1 }

/-- `Particle::set_active`: in-place `*self = self.next_state(active)`. -/
def Particle.set_active (p : Particle) (active : Bool) : Particle :=
  p.next_state active

/-- The grid, from `struct ConwayGrid`: flat row-major cell vector,
dimensions, and the unused scratch buffer. -/
structure ConwayGrid where
  particles : List Particle
  width : Nat
  height : Nat
  scratch_cells : List Particle
deriving Repr, DecidableEq

/-- Read of `particles[i]` (the Rust code only indexes in bounds; out of
bounds we return the default particle, which never satisfies any of the
update conditions). -/
def cellAt (ps : List Particle) (i : Nat) : Particle := ps.getD i default

/-- `ConwayGrid::new_empty` (after its non-zero / no-overflow asserts):
all cells default. -/
def ConwayGrid.new_empty (width height : Nat) : ConwayGrid :=
  { particles := List.replicate (width * height) default
    width := width
    height := height
    scratch_cells := List.replicate (width * height) default }

/-- The sequence of indices `x + y * width` visited by the nested
`for y in 0..height { for x in 0..width { ... } }` loops of `update`. -/
def scanIndices (w h : Nat) : List Nat :=
  (List.range h).flatMap (fun y => (List.range w).map (fun x => x + y * w))

/-- One iteration of the first (gravity) loop of `ConwayGrid::update` at
index `idx`: if the cell is active, not in the bottom row, and neither it
nor the cell below has been moved this tick, and the cell below is
inactive, drop the particle one row. -/
def scanStep (w : Nat) (ps : List Particle) (idx : Nat) : List Particle :=
  if (cellAt ps idx).active = true ∧ idx + w < ps.length ∧
      (cellAt ps (idx + w)).already_updated = false ∧
      (cellAt ps idx).already_updated = false then
    if (cellAt ps (idx + w)).active = false then
      (ps.set (idx + w)
          { cellAt ps (idx + w) with active := true, already_updated := true }).set idx
        { cellAt ps idx with active := false }
    else ps
  else ps

/-- One iteration of the second loop of `ConwayGrid::update`: clear the
`already_updated` guard at `idx`. -/
def resetStep (ps : List Particle) (idx : Nat) : List Particle :=
  ps.set idx { cellAt ps idx with already_updated := false }

/-- `ConwayGrid::update`: the gravity scan in row-major order followed by
the unconditional guard-reset pass. -/
def ConwayGrid.update (g : ConwayGrid) : ConwayGrid :=
  let ps1 := (scanIndices g.width g.height).foldl (scanStep g.width) g.particles
  let ps2 := (scanIndices g.width g.height).foldl resetStep ps1
  { g with particles := ps2 }

/-- `randomize::f32_half_open_right(x) = f32::from_bits((x >> 9) | (127 << 23)) - 1.0`,
i.e. exactly `(x >> 9) / 2^23` (both the bit pattern `1.frac` and the
difference are exactly representable in `f32`), as a rational. -/
def f32HalfOpenRight (u : Nat) : ℚ :=
  (((u % 2 ^ 32) >>> 9 : Nat) : ℚ) / 2 ^ 23

/-- `const INITIAL_FILL: f32 = 10.0` (exactly representable). -/
def INITIAL_FILL : ℚ := 10

/-- The per-cell loop of `ConwayGrid::randomize`, parameterised by the
stream of `rng.next_u32()` outputs (`draws k` is the draw consumed for
the `k`-th cell): each cell is overwritten with
`Particle::new(f32_half_open_right(draw) > INITIAL_FILL, false)`.
(The subsequent three settling `update()` calls and the `cool_off`
smoothing are not part of this pass.) -/
def randomizePass (g : ConwayGrid) (draws : Nat → Nat) : ConwayGrid :=
  let cell := fun (k : Nat) =>
    Particle.new (decide (f32HalfOpenRight (draws k) > INITIAL_FILL)) false
  { g with particles := (List.range g.particles.length).map cell }

/-- `ConwayGrid::grid_idx`: `isize → usize` conversion fails exactly on
negative inputs, then bounds check against width/height, returning the
row-major index. -/
def ConwayGrid.grid_idx (g : ConwayGrid) (x y : Int) : Option Nat :=
  if 0 ≤ x ∧ 0 ≤ y then
    if x.toNat < g.width ∧ y.toNat < g.height then
      some (x.toNat + y.toNat * g.width)
    else none
  else none

/-- `ConwayGrid::toggle`: resolve `(x, y)`; out of range returns `false`
and leaves the grid unchanged; otherwise flip `active` via `set_active`
and return the new state. -/
def ConwayGrid.toggle (g : ConwayGrid) (x y : Int) : Bool × ConwayGrid :=
  match g.grid_idx x y with
  | some i =>
      let was_alive := (cellAt g.particles i).active
      (!was_alive,
        { g with particles :=
            g.particles.set i ((cellAt g.particles i).set_active (!was_alive)) })
  | none => (false, g)

/-- Colour written for one cell by `ConwayGrid::draw`:
active ↦ `[0, 0xff, 0xff, 0xff]`, inactive ↦ `[0, 0, heat, 0xff]`. -/
def colorOf (c : Particle) : List Nat :=
  if c.active then [0, 255, 255, 255] else [0, 0, c.heat, 255]

/-- The `zip(chunks_exact_mut(4))` write loop of `draw`: overwrite the
screen four bytes at a time, one cell per chunk, stopping when either
cells or full chunks run out (the remainder of the screen is untouched). -/
def drawLoop : List Particle → List Nat → List Nat
  | c :: cs, _ :: _ :: _ :: _ :: rest => colorOf c ++ drawLoop cs rest
  | _, rest => rest

/-- Modelled from the spec: §4.5 LineRasterizer.  The `line_drawing`
crate used by `set_line` is an external dependency whose source is not
part of this repository; its Bresenham iterator is modelled here
(integer-only octant-based Bresenham, inclusive of both endpoints).
`octantOf (dx, dy)` selects the octant index exactly as the crate's
`Octant::from_points`. -/
def octantOf (d : Int × Int) : Nat :=
  let a := if d.2 < 0 then (-d.1, -d.2, 4) else (d.1, d.2, 0)
  let b := if a.1 < 0 then (a.2.1, -a.1, a.2.2 + 2) else a
  if b.1 < b.2.1 then b.2.2 + 1 else b.2.2

/-- Modelled from the spec: coordinate change into octant-0 space
(where `0 ≤ dy ≤ dx`), per octant index. -/
def toOctant (o : Nat) (p : Int × Int) : Int × Int :=
  match o with
  | 0 => (p.1, p.2)
  | 1 => (p.2, p.1)
  | 2 => (p.2, -p.1)
  | 3 => (-p.1, p.2)
  | 4 => (-p.1, -p.2)
  | 5 => (-p.2, -p.1)
  | 6 => (-p.2, p.1)
  | _ => (p.1, -p.2)

/-- Modelled from the spec: inverse coordinate change out of octant-0
space, per octant index. -/
def fromOctant (o : Nat) (p : Int × Int) : Int × Int :=
  match o with
  | 0 => (p.1, p.2)
  | 1 => (p.2, p.1)
  | 2 => (-p.2, p.1)
  | 3 => (-p.1, p.2)
  | 4 => (-p.1, -p.2)
  | 5 => (-p.2, -p.1)
  | 6 => (p.2, -p.1)
  | _ => (p.1, -p.2)

/-- Modelled from the spec: the Bresenham main loop in octant-0 space.
`fuel` counts the remaining points (`dx + 1` in total, so the loop stops
exactly when the transformed x coordinate passes the endpoint). -/
def bresLoop (o : Nat) (dx dy : Int) : Nat → Int × Int → Int → List (Int × Int)
  | 0, _, _ => []
  | fuel + 1, p, err =>
      fromOctant o p ::
        bresLoop o dx dy fuel
          (p.1 + 1, if 0 ≤ err then p.2 + 1 else p.2)
          ((if 0 ≤ err then err - dx else err) + dy)

/-- Modelled from the spec: the full Bresenham rasterizer from `start`
to `stop`, inclusive of both endpoints, visiting one point per step of
the driving axis. -/
def bresenham (start stop : Int × Int) : List (Int × Int) :=
  let o := octantOf (stop.1 - start.1, stop.2 - start.2)
  let s := toOctant o start
  let e := toOctant o stop
  let dx := e.1 - s.1
  let dy := e.2 - s.2
  bresLoop o dx dy (dx.toNat + 1) s (dy - dx)

/-- Write helper used by `set_line` and nothing else:
`particles[i].set_active(active)` on the grid. -/
def setActiveAt (g : ConwayGrid) (i : Nat) (active : Bool) : ConwayGrid :=
  { g with particles := g.particles.set i ((cellAt g.particles i).set_active active) }

/-- The `for (x, y) in Bresenham::new(..)` loop of `ConwayGrid::set_line`:
activate every point that resolves via `grid_idx`, and `break` out of the
loop at the first point that does not (never resuming). -/
def setLineLoop (g : ConwayGrid) (active : Bool) : List (Int × Int) → ConwayGrid
  | [] => g
  | p :: rest =>
      match g.grid_idx p.1 p.2 with
      | some i => setLineLoop (setActiveAt g i active) active rest
      | none => g

/-- `ConwayGrid::set_line`: clamp only the start point with
`x0.max(0).min(width)` / `y0.max(0).min(height)` (upper bound the
dimension itself), then run the rasterizer loop to the unclamped end. -/
def ConwayGrid.set_line (g : ConwayGrid) (x0 y0 x1 y1 : Int) (active : Bool) : ConwayGrid :=
  let cx := min (max x0 0) (g.width : Int)
  let cy := min (max y0 0) (g.height : Int)
  setLineLoop g active (bresenham (cx, cy) (x1, y1))

/-- `ConwayGrid::draw`: the length assertion
(`debug_assert_eq!(screen.len(), 4 * self.particles.len())`) modelled as
a fallible precondition, then the write loop.  `draw` takes the grid by
shared reference, so it returns only the new screen. -/
def ConwayGrid.draw (g : ConwayGrid) (screen : List Nat) : Option (List Nat) :=
  if screen.length = 4 * g.particles.length then
    some (drawLoop g.particles screen)
  else none

/-- Number of active cells of a cell vector. -/
def countActive (ps : List Particle) : Nat := ps.countP (fun c => c.active)

/-! ### Helper lemmas about `cellAt` and `List.set` -/

theorem cellAt_set_self {l : List Particle} {i : Nat} {a : Particle} (h : i < l.length) :
    cellAt (l.set i a) i = a := by
  simp [cellAt, List.getElem?_set_self h]

theorem cellAt_set_ne {l : List Particle} {i j : Nat} (a : Particle) (h : i ≠ j) :
    cellAt (l.set i a) j = cellAt l j := by
  simp [cellAt, List.getElem?_set_ne h]

theorem cellAt_oob {l : List Particle} {i : Nat} (h : l.length ≤ i) :
    cellAt l i = default := by
  simp [cellAt, List.getElem?_eq_none h]

theorem cellAt_cons_succ (b : Particle) (t : List Particle) (n : Nat) :
    cellAt (b :: t) (n + 1) = cellAt t n := rfl

theorem countP_set_add (p : Particle → Bool) (l : List Particle) (i : Nat) (a : Particle)
    (h : i < l.length) :
    (l.set i a).countP p + (if p (cellAt l i) then 1 else 0)
      = l.countP p + (if p a then 1 else 0) := by
  induction l generalizing i with
  | nil => simp at h
  | cons b t ih =>
      cases i with
      | zero =>
          show (a :: t).countP p + _ = _
          simp only [List.countP_cons]
          have : cellAt (b :: t) 0 = b := rfl
          rw [this]
          split <;> split <;> omega
      | succ n =>
          have hn : n < t.length := by simpa using h
          show (b :: t.set n a).countP p + _ = _
          simp only [List.countP_cons, cellAt_cons_succ]
          have := ih n hn
          omega

/-! ### Rendering -/

theorem drawLoop_eq_flatMap (ps : List Particle) (screen : List Nat)
    (h : screen.length = 4 * ps.length) :
    drawLoop ps screen = ps.flatMap colorOf := by
  induction ps generalizing screen with
  | nil =>
      have : screen = [] := List.length_eq_zero.mp (by simpa using h)
      subst this
      rfl
  | cons c cs ih =>
      match screen, h with
      | b0 :: b1 :: b2 :: b3 :: rest, h =>
          have hr : rest.length = 4 * cs.length := by
            simp [List.length_cons] at h
            omega
          show colorOf c ++ drawLoop cs rest = _
          rw [List.flatMap_cons, ih rest hr]

/-- C5: for every grid and every buffer whose length is not 4 times the
number of cells, `draw` fails its length assertion (modelled as `none`). -/
theorem draw_wrong_length_fails (g : ConwayGrid) (screen : List Nat)
    (h : screen.length ≠ 4 * g.particles.length) :
    g.draw screen = none := by
  unfold ConwayGrid.draw
  rw [if_neg h]

/-- Witness for C5 at a concrete grid and wrong-length (empty) buffer. -/
theorem draw_wrong_length_fails_witness :
    (List.length ([] : List Nat) ≠ 4 * (ConwayGrid.new_empty 1 1).particles.length) ∧
      (ConwayGrid.new_empty 1 1).draw [] = none :=
  ⟨by decide, draw_wrong_length_fails (ConwayGrid.new_empty 1 1) [] (by decide)⟩

/-- C6: with a buffer of the correct length `4 * width * height`, `draw`
produces, cell by cell in storage order, the four bytes
`[0, 255, 255, 255]` for an active cell and `[0, 0, heat, 255]` for an
inactive one (`colorOf`); `draw` reads the grid through a shared
reference, so the grid itself is unchanged. -/
theorem draw_writes_colors (g : ConwayGrid) (screen : List Nat)
    (h : screen.length = 4 * g.particles.length) :
    g.draw screen = some (g.particles.flatMap colorOf) := by
  unfold ConwayGrid.draw
  rw [if_pos h, drawLoop_eq_flatMap _ _ h]

/-- Witness for C6: the all-inactive 2-by-1 grid with heats 10 and 20
renders to `[0,0,10,255, 0,0,20,255]`. -/
theorem draw_writes_colors_witness :
    (List.replicate 8 0).length
        = 4 * (ConwayGrid.mk [⟨false, false, 10⟩, ⟨false, false, 20⟩] 2 1 []).particles.length ∧
      (ConwayGrid.mk [⟨false, false, 10⟩, ⟨false, false, 20⟩] 2 1 []).draw (List.replicate 8 0)
        = some [0, 0, 10, 255, 0, 0, 20, 255] := by
  refine ⟨by decide, ?_⟩
  rw [draw_writes_colors _ _ (by decide)]
  rfl

/-! ### Bounds-checked addressing and toggle -/

theorem grid_idx_eq (g : ConwayGrid) (x y : Int) :
    g.grid_idx x y =
      if 0 ≤ x ∧ 0 ≤ y ∧ x.toNat < g.width ∧ y.toNat < g.height then
        some (x.toNat + y.toNat * g.width)
      else none := by
  unfold ConwayGrid.grid_idx
  by_cases h1 : 0 ≤ x ∧ 0 ≤ y
  · rw [if_pos h1]
    by_cases h2 : x.toNat < g.width ∧ y.toNat < g.height
    · rw [if_pos h2, if_pos ⟨h1.1, h1.2, h2.1, h2.2⟩]
    · rw [if_neg h2, if_neg (fun hc => h2 ⟨hc.2.2.1, hc.2.2.2⟩)]
  · rw [if_neg h1, if_neg (fun hc => h1 ⟨hc.1, hc.2.1⟩)]

/-- C7: out-of-range coordinates (negative, or at least the corresponding
dimension) make `grid_idx` return `none` and `toggle` return `false`
without touching the grid; in-range coordinates make `toggle` flip the
cell through `set_active` (heat 255 on activation, saturating decrement
on deactivation) and return the new active state. -/
theorem toggle_bounds_behavior (g : ConwayGrid) (x y : Int) :
    ((x < 0 ∨ y < 0 ∨ (g.width : Int) ≤ x ∨ (g.height : Int) ≤ y) →
      g.grid_idx x y = none ∧ g.toggle x y = (false, g)) ∧
    (0 ≤ x → 0 ≤ y → x < (g.width : Int) → y < (g.height : Int) →
      g.grid_idx x y = some (x.toNat + y.toNat * g.width) ∧
      (g.toggle x y).1 = !(cellAt g.particles (x.toNat + y.toNat * g.width)).active ∧
      (g.toggle x y).2.particles = g.particles.set (x.toNat + y.toNat * g.width) ((cellAt g.particles (x.toNat + y.toNat * g.width)).set_active (!(cellAt g.particles (x.toNat + y.toNat * g.width)).active)) ∧
      (g.toggle x y).2.width = g.width ∧ (g.toggle x y).2.height = g.height ∧
      (x.toNat + y.toNat * g.width < g.particles.length →
        (cellAt g.particles (x.toNat + y.toNat * g.width)).active = false →
          (cellAt (g.toggle x y).2.particles (x.toNat + y.toNat * g.width)).active = true ∧
          (cellAt (g.toggle x y).2.particles (x.toNat + y.toNat * g.width)).heat = 255) ∧
      (x.toNat + y.toNat * g.width < g.particles.length →
        (cellAt g.particles (x.toNat + y.toNat * g.width)).active = true →
          (cellAt (g.toggle x y).2.particles (x.toNat + y.toNat * g.width)).active = false ∧
          (cellAt (g.toggle x y).2.particles (x.toNat + y.toNat * g.width)).heat
            = (cellAt g.particles (x.toNat + y.toNat * g.width)).heat - 1)) := by
  constructor
  · intro hout
    have hnone : g.grid_idx x y = none := by
      rw [grid_idx_eq]
      rw [if_neg]
      intro hc
      obtain ⟨h1, h2, h3, h4⟩ := hc
      rcases hout with h | h | h | h <;> omega
    refine ⟨hnone, ?_⟩
    unfold ConwayGrid.toggle
    rw [hnone]
  · intro h1 h2 h3 h4
    have hsome : g.grid_idx x y = some (x.toNat + y.toNat * g.width) := by
      rw [grid_idx_eq, if_pos]
      exact ⟨h1, h2, by omega, by omega⟩
    have htog1 : (g.toggle x y).1 = !(cellAt g.particles (x.toNat + y.toNat * g.width)).active := by
      unfold ConwayGrid.toggle
      rw [hsome]
    have htog2 : (g.toggle x y).2.particles = g.particles.set (x.toNat + y.toNat * g.width) ((cellAt g.particles (x.toNat + y.toNat * g.width)).set_active (!(cellAt g.particles (x.toNat + y.toNat * g.width)).active)) := by
      unfold ConwayGrid.toggle
      rw [hsome]
    have htogw : (g.toggle x y).2.width = g.width := by
      unfold ConwayGrid.toggle
      rw [hsome]
    have htogh : (g.toggle x y).2.height = g.height := by
      unfold ConwayGrid.toggle
      rw [hsome]
    refine ⟨hsome, htog1, htog2, htogw, htogh, ?_, ?_⟩
    · intro hlt hinact
      rw [htog2, cellAt_set_self hlt, hinact]
      simp [Particle.set_active, Particle.next_state]
    · intro hlt hact
      rw [htog2, cellAt_set_self hlt, hact]
      simp [Particle.set_active, Particle.next_state]

/-- Witness for C7 at a concrete grid: `(-1, 0)` is rejected with no
mutation, and toggling the in-range cell `(0, 0)` activates it. -/
theorem toggle_bounds_behavior_witness :
    ((ConwayGrid.new_empty 2 2).grid_idx (-1) 0 = none ∧
      (ConwayGrid.new_empty 2 2).toggle (-1) 0 = (false, ConwayGrid.new_empty 2 2)) ∧
    (ConwayGrid.new_empty 2 2).grid_idx 0 0 = some 0 ∧
    ((ConwayGrid.new_empty 2 2).toggle 0 0).1 = true := by
  have h := toggle_bounds_behavior (ConwayGrid.new_empty 2 2) (-1) 0
  have h2 := toggle_bounds_behavior (ConwayGrid.new_empty 2 2) 0 0
  refine ⟨h.1 (Or.inl (by decide)), ?_, ?_⟩
  · have := (h2.2 (by decide) (by decide) (by decide) (by decide)).1
    simpa using this
  · have := (h2.2 (by decide) (by decide) (by decide) (by decide)).2.1
    simp only [this]
    decide

/-! ### The update pass: length, particle-count and heat preservation -/

theorem scanStep_length (w : Nat) (ps : List Particle) (idx : Nat) :
    (scanStep w ps idx).length = ps.length := by
  unfold scanStep
  split
  · split <;> simp
  · rfl

theorem resetStep_length (ps : List Particle) (idx : Nat) :
    (resetStep ps idx).length = ps.length := by
  unfold resetStep
  simp

theorem foldl_scanStep_length (w : Nat) (L : List Nat) (ps : List Particle) :
    (L.foldl (scanStep w) ps).length = ps.length := by
  induction L generalizing ps with
  | nil => rfl
  | cons j t ih => rw [List.foldl_cons, ih, scanStep_length]

theorem foldl_resetStep_length (L : List Nat) (ps : List Particle) :
    (L.foldl resetStep ps).length = ps.length := by
  induction L generalizing ps with
  | nil => rfl
  | cons j t ih => rw [List.foldl_cons, ih, resetStep_length]

theorem default_not_active : (default : Particle).active = false := rfl

theorem scanStep_idx_lt (ps : List Particle) (idx : Nat)
    (hact : (cellAt ps idx).active = true) : idx < ps.length := by
  by_contra hge
  rw [cellAt_oob (Nat.le_of_not_lt hge)] at hact
  exact Bool.false_ne_true hact

theorem countActive_move (ps : List Particle) (j i : Nat) (b c : Particle)
    (hj : j < ps.length) (hi : i < ps.length) (hne : j ≠ i)
    (hbact : b.active = true) (hcact : c.active = false)
    (hjact : (cellAt ps j).active = false) (hiact : (cellAt ps i).active = true) :
    countActive ((ps.set j b).set i c) = countActive ps := by
  have h1 := countP_set_add (fun x => x.active) ps j b hj
  have h2 := countP_set_add (fun x => x.active) (ps.set j b) i c (by simpa using hi)
  rw [cellAt_set_ne _ hne] at h2
  simp [hjact, hbact] at h1
  simp [hiact, hcact] at h2
  unfold countActive
  omega

theorem countActive_set_same (ps : List Particle) (i : Nat) (c : Particle)
    (hc : c.active = (cellAt ps i).active) :
    countActive (ps.set i c) = countActive ps := by
  by_cases h : i < ps.length
  · have h1 := countP_set_add (fun x => x.active) ps i c h
    simp only [hc] at h1
    unfold countActive
    omega
  · rw [List.set_eq_of_length_le (Nat.le_of_not_lt h)]

theorem scanStep_countActive (w : Nat) (ps : List Particle) (idx : Nat) :
    countActive (scanStep w ps idx) = countActive ps := by
  unfold scanStep
  split
  case isTrue hcond =>
    obtain ⟨hact, hlt, hbg, hcg⟩ := hcond
    split
    case isTrue hbelow =>
      have hidx : idx < ps.length := scanStep_idx_lt ps idx hact
      have hne : idx + w ≠ idx := by
        intro he
        rw [he, hact] at hbelow
        exact absurd hbelow (by decide)
      exact countActive_move ps (idx + w) idx _ _ hlt hidx hne rfl rfl hbelow hact
    case isFalse hbelow => rfl
  case isFalse hcond => rfl

theorem resetStep_countActive (ps : List Particle) (idx : Nat) :
    countActive (resetStep ps idx) = countActive ps := by
  unfold resetStep
  exact countActive_set_same ps idx _ rfl

theorem foldl_scanStep_countActive (w : Nat) (L : List Nat) (ps : List Particle) :
    countActive (L.foldl (scanStep w) ps) = countActive ps := by
  induction L generalizing ps with
  | nil => rfl
  | cons j t ih => rw [List.foldl_cons, ih, scanStep_countActive]

theorem foldl_resetStep_countActive (L : List Nat) (ps : List Particle) :
    countActive (L.foldl resetStep ps) = countActive ps := by
  induction L generalizing ps with
  | nil => rfl
  | cons j t ih => rw [List.foldl_cons, ih, resetStep_countActive]

/-- C9: one call of `update` conserves the number of active cells, for
every grid state: particles are moved, never created or destroyed. -/
theorem update_conserves_active_count (g : ConwayGrid) :
    countActive g.update.particles = countActive g.particles := by
  unfold ConwayGrid.update
  rw [foldl_resetStep_countActive, foldl_scanStep_countActive]

theorem cellAt_heat_set (ps : List Particle) (i p : Nat) (c : Particle)
    (hcheat : c.heat = (cellAt ps i).heat) :
    (cellAt (ps.set i c) p).heat = (cellAt ps p).heat := by
  by_cases hp : p = i
  · subst hp
    by_cases hl : p < ps.length
    · rw [cellAt_set_self hl, hcheat]
    · rw [List.set_eq_of_length_le (Nat.le_of_not_lt hl)]
  · rw [cellAt_set_ne _ (fun he => hp he.symm)]

theorem cellAt_active_set (ps : List Particle) (i p : Nat) (c : Particle)
    (hcact : c.active = (cellAt ps i).active) :
    (cellAt (ps.set i c) p).active = (cellAt ps p).active := by
  by_cases hp : p = i
  · subst hp
    by_cases hl : p < ps.length
    · rw [cellAt_set_self hl, hcact]
    · rw [List.set_eq_of_length_le (Nat.le_of_not_lt hl)]
  · rw [cellAt_set_ne _ (fun he => hp he.symm)]

theorem scanStep_heat (w : Nat) (ps : List Particle) (idx p : Nat) :
    (cellAt (scanStep w ps idx) p).heat = (cellAt ps p).heat := by
  unfold scanStep
  split
  case isTrue hcond =>
    obtain ⟨hact, hlt, hbg, hcg⟩ := hcond
    split
    case isTrue hbelow =>
      have hne : idx + w ≠ idx := by
        intro he
        rw [he, hact] at hbelow
        exact absurd hbelow (by decide)
      have e1 := cellAt_heat_set (ps.set (idx + w) { cellAt ps (idx + w) with active := true, already_updated := true }) idx p { cellAt ps idx with active := false } (by rw [cellAt_set_ne _ hne])
      have e2 := cellAt_heat_set ps (idx + w) p { cellAt ps (idx + w) with active := true, already_updated := true } rfl
      exact e1.trans e2
    case isFalse hbelow => rfl
  case isFalse hcond => rfl

theorem resetStep_heat (ps : List Particle) (idx p : Nat) :
    (cellAt (resetStep ps idx) p).heat = (cellAt ps p).heat := by
  unfold resetStep
  exact cellAt_heat_set ps idx p _ rfl

theorem resetStep_active (ps : List Particle) (idx p : Nat) :
    (cellAt (resetStep ps idx) p).active = (cellAt ps p).active := by
  unfold resetStep
  exact cellAt_active_set ps idx p _ rfl

theorem foldl_scanStep_heat (w : Nat) (L : List Nat) (ps : List Particle) (p : Nat) :
    (cellAt (L.foldl (scanStep w) ps) p).heat = (cellAt ps p).heat := by
  induction L generalizing ps with
  | nil => rfl
  | cons j t ih => rw [List.foldl_cons, ih, scanStep_heat]

theorem foldl_resetStep_heat (L : List Nat) (ps : List Particle) (p : Nat) :
    (cellAt (L.foldl resetStep ps) p).heat = (cellAt ps p).heat := by
  induction L generalizing ps with
  | nil => rfl
  | cons j t ih => rw [List.foldl_cons, ih, resetStep_heat]

theorem foldl_resetStep_active (L : List Nat) (ps : List Particle) (p : Nat) :
    (cellAt (L.foldl resetStep ps) p).active = (cellAt ps p).active := by
  induction L generalizing ps with
  | nil => rfl
  | cons j t ih => rw [List.foldl_cons, ih, resetStep_active]

/-- C10: `update` never changes any cell's `heat`: the gravity move
writes only `active` and `already_updated`, so a landing particle does
not get heat 255 and a vacated cell does not decay.  (The cell vector
also keeps its length.) -/
theorem update_preserves_heat (g : ConwayGrid) (j : Nat) :
    (cellAt g.update.particles j).heat = (cellAt g.particles j).heat ∧
    g.update.particles.length = g.particles.length := by
  unfold ConwayGrid.update
  constructor
  · rw [foldl_resetStep_heat, foldl_scanStep_heat]
  · rw [foldl_resetStep_length, foldl_scanStep_length]

/-! ### The scan order and the guard-reset pass -/

theorem scanIndices_eq_range (w h : Nat) : scanIndices w h = List.range (w * h) := by
  induction h with
  | zero => simp [scanIndices]
  | succ n ih =>
      have e1 : scanIndices w (n + 1) = scanIndices w n ++ (List.range w).map (fun x => x + n * w) := by
        unfold scanIndices
        rw [List.range_succ, List.flatMap_append]
        simp
      rw [e1, ih]
      have e2 : w * (n + 1) = w * n + w := by ring
      rw [e2, List.range_add]
      congr 1
      apply List.map_congr_left
      intro x hx
      ring

theorem resetStep_guard_preserved (ps : List Particle) (idx p : Nat)
    (h : (cellAt ps p).already_updated = false) :
    (cellAt (resetStep ps idx) p).already_updated = false := by
  unfold resetStep
  by_cases hp : p = idx
  · subst hp
    by_cases hl : p < ps.length
    · rw [cellAt_set_self hl]
    · rw [List.set_eq_of_length_le (Nat.le_of_not_lt hl)]
      exact h
  · rw [cellAt_set_ne _ (fun he => hp he.symm)]
    exact h

theorem foldl_resetStep_guard_preserved (L : List Nat) (ps : List Particle) (p : Nat)
    (h : (cellAt ps p).already_updated = false) :
    (cellAt (L.foldl resetStep ps) p).already_updated = false := by
  induction L generalizing ps with
  | nil => exact h
  | cons j t ih =>
      rw [List.foldl_cons]
      exact ih (resetStep ps j) (resetStep_guard_preserved ps j p h)

theorem foldl_resetStep_guard_mem (L : List Nat) (ps : List Particle) (p : Nat)
    (hmem : p ∈ L) (hp : p < ps.length) :
    (cellAt (L.foldl resetStep ps) p).already_updated = false := by
  induction L generalizing ps with
  | nil => cases hmem
  | cons j t ih =>
      rw [List.foldl_cons]
      rcases List.mem_cons.mp hmem with he | ht
      · subst he
        apply foldl_resetStep_guard_preserved
        unfold resetStep
        rw [cellAt_set_self hp]
      · exact ih (resetStep ps j) ht (by rw [resetStep_length]; exact hp)

/-- C4: after `update()` returns, the `already_updated` guard is false on
every cell: the second loop clears it unconditionally at every index of
the grid. -/
theorem update_clears_guards (g : ConwayGrid)
    (hlen : g.particles.length = g.width * g.height) (j : Nat) :
    (cellAt g.update.particles j).already_updated = false := by
  show (cellAt ((scanIndices g.width g.height).foldl resetStep ((scanIndices g.width g.height).foldl (scanStep g.width) g.particles)) j).already_updated = false
  have hlen1 : ((scanIndices g.width g.height).foldl (scanStep g.width) g.particles).length = g.width * g.height := by
    rw [foldl_scanStep_length, hlen]
  by_cases hj : j < g.width * g.height
  · apply foldl_resetStep_guard_mem
    · rw [scanIndices_eq_range]
      exact List.mem_range.mpr hj
    · omega
  · have hoob : ((scanIndices g.width g.height).foldl resetStep ((scanIndices g.width g.height).foldl (scanStep g.width) g.particles)).length ≤ j := by
      rw [foldl_resetStep_length]
      omega
    rw [cellAt_oob hoob]
    rfl

/-- Witness for C4 on a concrete 1-by-2 grid whose cells all carry a set
guard flag before the call. -/
theorem update_clears_guards_witness :
    (ConwayGrid.mk [⟨true, true, 255⟩, ⟨false, true, 7⟩] 1 2 []).particles.length
        = (ConwayGrid.mk [⟨true, true, 255⟩, ⟨false, true, 7⟩] 1 2 []).width
            * (ConwayGrid.mk [⟨true, true, 255⟩, ⟨false, true, 7⟩] 1 2 []).height ∧
    (cellAt (ConwayGrid.mk [⟨true, true, 255⟩, ⟨false, true, 7⟩] 1 2 []).update.particles 0).already_updated = false ∧
    (cellAt (ConwayGrid.mk [⟨true, true, 255⟩, ⟨false, true, 7⟩] 1 2 []).update.particles 1).already_updated = false := by
  refine ⟨by decide, ?_, ?_⟩
  · exact update_clears_guards (ConwayGrid.mk [⟨true, true, 255⟩, ⟨false, true, 7⟩] 1 2 []) (by decide) 0
  · exact update_clears_guards (ConwayGrid.mk [⟨true, true, 255⟩, ⟨false, true, 7⟩] 1 2 []) (by decide) 1

/-- C2 (evidence of the code bug): a 1-by-2 grid whose single active top
cell has heat 255 and whose bottom cell is inactive with heat 0
satisfies the documented invariant, yet after one `update()` the bottom
cell is active with heat 0, not 255: the gravity move toggles `active`
directly instead of going through `set_active`. -/
theorem update_breaks_heat_invariant :
    (cellAt (ConwayGrid.mk [⟨true, false, 255⟩, ⟨false, false, 0⟩] 1 2 []).particles 0).active = true ∧
    (cellAt (ConwayGrid.mk [⟨true, false, 255⟩, ⟨false, false, 0⟩] 1 2 []).particles 0).heat = 255 ∧
    (cellAt (ConwayGrid.mk [⟨true, false, 255⟩, ⟨false, false, 0⟩] 1 2 []).update.particles 1).active = true ∧
    (cellAt (ConwayGrid.mk [⟨true, false, 255⟩, ⟨false, false, 0⟩] 1 2 []).update.particles 1).heat = 0 := by
  decide

/-! ### Initialization: the fill comparison never succeeds -/

theorem f32HalfOpenRight_lt_one (u : Nat) :
    0 ≤ f32HalfOpenRight u ∧ f32HalfOpenRight u < 1 := by
  unfold f32HalfOpenRight
  constructor
  · positivity
  · rw [div_lt_one (by norm_num)]
    have h1 : (u % 2 ^ 32) >>> 9 < 2 ^ 23 := by
      rw [Nat.shiftRight_eq_div_pow]
      have h2 : u % 2 ^ 32 < 2 ^ 32 := Nat.mod_lt _ (by norm_num)
      norm_num at h2 ⊢
      omega
    exact_mod_cast h1

/-- C1 (amended, general form): after the per-cell pass of `randomize`,
every cell of the grid is exactly `Particle::new(draw > INITIAL_FILL, false)`,
the draw lies in `[0, 1)`, and since `INITIAL_FILL = 10` the comparison is
always false: the cell is inactive. -/
theorem randomizePass_all_inactive (g : ConwayGrid) (draws : Nat → Nat) (k : Nat)
    (hk : k < g.particles.length) :
    0 ≤ f32HalfOpenRight (draws k) ∧ f32HalfOpenRight (draws k) < 1 ∧
    cellAt (randomizePass g draws).particles k
      = Particle.new (decide (f32HalfOpenRight (draws k) > INITIAL_FILL)) false ∧
    (cellAt (randomizePass g draws).particles k).active = false := by
  obtain ⟨h0, h1⟩ := f32HalfOpenRight_lt_one (draws k)
  have hcell : cellAt (randomizePass g draws).particles k
      = Particle.new (decide (f32HalfOpenRight (draws k) > INITIAL_FILL)) false := by
    simp [randomizePass, cellAt, hk]
  have hdec : decide (f32HalfOpenRight (draws k) > INITIAL_FILL) = false := by
    simp [INITIAL_FILL]
    linarith
  refine ⟨h0, h1, hcell, ?_⟩
  rw [hcell, hdec]
  rfl

/-- Witness for C1's amended theorem at a concrete grid and draw stream. -/
theorem randomizePass_all_inactive_witness :
    0 < (ConwayGrid.new_empty 2 2).particles.length ∧
    (cellAt (randomizePass (ConwayGrid.new_empty 2 2) (fun _ => 4294967295)).particles 0).active
      = false := by
  refine ⟨by decide, ?_⟩
  exact (randomizePass_all_inactive (ConwayGrid.new_empty 2 2) (fun _ => 4294967295) 0
    (by decide)).2.2.2

theorem countActive_randomizePass (g : ConwayGrid) (draws : Nat → Nat) :
    countActive (randomizePass g draws).particles = 0 := by
  unfold countActive
  rw [List.countP_eq_zero]
  intro c hc
  simp [randomizePass, List.mem_map] at hc
  obtain ⟨k, hk, hck⟩ := hc
  obtain ⟨h0, h1⟩ := f32HalfOpenRight_lt_one (draws k)
  rw [← hck]
  simp [Particle.new, INITIAL_FILL]
  linarith

/-- C1 (counterexample to the claim as stated): after the per-cell pass
on a concrete 2-by-2 grid (with the maximal `u32` draw, the draw closest
to the threshold), not a single one of the 4 cells is active — not
"nearly all". -/
theorem randomizePass_leaves_grid_empty :
    countActive (randomizePass (ConwayGrid.new_empty 2 2) (fun _ => 4294967295)).particles = 0 ∧
    (randomizePass (ConwayGrid.new_empty 2 2) (fun _ => 4294967295)).particles.length = 4 := by
  refine ⟨countActive_randomizePass _ _, ?_⟩
  simp [randomizePass, ConwayGrid.new_empty]

/-! ### The gravity scan: cells a step cannot touch -/

theorem scanStep_untouched (w : Nat) (ps : List Particle) (j p : Nat)
    (h1 : j ≠ p) (h2 : j + w ≠ p) :
    cellAt (scanStep w ps j) p = cellAt ps p := by
  unfold scanStep
  split
  · split
    · rw [cellAt_set_ne _ h1, cellAt_set_ne _ h2]
    · rfl
  · rfl

theorem scanStep_active_other (w : Nat) (ps : List Particle) (j p : Nat)
    (h1 : j ≠ p) (hact : (cellAt ps p).active = true) :
    cellAt (scanStep w ps j) p = cellAt ps p := by
  by_cases h2 : j + w = p
  · unfold scanStep
    split
    · split
      · rename_i hbelow
        rw [h2, hact] at hbelow
        exact absurd hbelow (by decide)
      · rfl
    · rfl
  · exact scanStep_untouched w ps j p h1 h2

theorem scanStep_guarded (w : Nat) (ps : List Particle) (j p : Nat)
    (hact : (cellAt ps p).active = true)
    (hg : (cellAt ps p).already_updated = true) :
    cellAt (scanStep w ps j) p = cellAt ps p := by
  by_cases h1 : j = p
  · subst h1
    unfold scanStep
    split
    · rename_i hcond
      have hx := hcond.2.2.2
      rw [hg] at hx
      exact absurd hx (by decide)
    · rfl
  · by_cases h2 : j + w = p
    · unfold scanStep
      split
      · rename_i hcond
        have hx := hcond.2.2.1
        rw [h2, hg] at hx
        exact absurd hx (by decide)
      · rfl
    · exact scanStep_untouched w ps j p h1 h2

theorem foldl_scanStep_untouched (w : Nat) (L : List Nat) (ps : List Particle) (p : Nat)
    (h : ∀ j ∈ L, j ≠ p ∧ j + w ≠ p) :
    cellAt (L.foldl (scanStep w) ps) p = cellAt ps p := by
  induction L generalizing ps with
  | nil => rfl
  | cons j t ih =>
      rw [List.foldl_cons]
      rw [ih (scanStep w ps j) (fun a ha => h a (List.mem_cons_of_mem j ha))]
      exact scanStep_untouched w ps j p (h j (List.mem_cons_self j t)).1
        (h j (List.mem_cons_self j t)).2

theorem foldl_scanStep_active_other (w : Nat) (L : List Nat) (ps : List Particle) (p : Nat)
    (h : ∀ j ∈ L, j ≠ p) (hact : (cellAt ps p).active = true) :
    cellAt (L.foldl (scanStep w) ps) p = cellAt ps p := by
  induction L generalizing ps with
  | nil => rfl
  | cons j t ih =>
      rw [List.foldl_cons]
      have hstep := scanStep_active_other w ps j p (h j (List.mem_cons_self j t)) hact
      rw [ih (scanStep w ps j) (fun a ha => h a (List.mem_cons_of_mem j ha))
        (by rw [hstep]; exact hact)]
      exact hstep

theorem foldl_scanStep_guarded (w : Nat) (L : List Nat) (ps : List Particle) (p : Nat)
    (hact : (cellAt ps p).active = true)
    (hg : (cellAt ps p).already_updated = true) :
    cellAt (L.foldl (scanStep w) ps) p = cellAt ps p := by
  induction L generalizing ps with
  | nil => rfl
  | cons j t ih =>
      rw [List.foldl_cons]
      have hstep := scanStep_guarded w ps j p hact hg
      rw [ih (scanStep w ps j) (by rw [hstep]; exact hact) (by rw [hstep]; exact hg)]
      exact hstep

theorem scanStep_fires (w : Nat) (ps : List Particle) (idx : Nat)
    (h1 : (cellAt ps idx).active = true) (h2 : idx + w < ps.length)
    (h3 : (cellAt ps (idx + w)).already_updated = false)
    (h4 : (cellAt ps idx).already_updated = false)
    (h5 : (cellAt ps (idx + w)).active = false) :
    scanStep w ps idx
      = (ps.set (idx + w) { cellAt ps (idx + w) with active := true, already_updated := true }).set idx { cellAt ps idx with active := false } := by
  unfold scanStep
  rw [if_pos ⟨h1, h2, h3, h4⟩, if_pos h5]

theorem range_split (n i : Nat) (h : i < n) :
    ∃ suf : List Nat, List.range n = List.range i ++ i :: suf ∧ ∀ j ∈ suf, i < j := by
  refine ⟨(List.range (n - i - 1)).map (fun k => i + 1 + k), ?_, ?_⟩
  · have e : n = (i + 1) + (n - i - 1) := by omega
    conv_lhs => rw [e]
    rw [List.range_add, List.range_succ, List.append_assoc]
    rfl
  · intro j hj
    simp only [List.mem_map] at hj
    obtain ⟨k, _, hk⟩ := hj
    omega

/-- C3: starting from any grid whose guard flags are all false, an active
cell `i` above the bottom row with an inactive cell directly below it
moves exactly one row in one `update()`: afterwards cell `i` is inactive
and cell `i + width` is active (exactly one of the two is active — the
lower one; the particle does not fall further in the same tick). -/
theorem update_single_fall (g : ConwayGrid) (i : Nat)
    (hlen : g.particles.length = g.width * g.height)
    (hguards : ∀ j, j < g.particles.length → (cellAt g.particles j).already_updated = false)
    (hrow : i + g.width < g.particles.length)
    (hact : (cellAt g.particles i).active = true)
    (hbelow : (cellAt g.particles (i + g.width)).active = false) :
    (cellAt g.update.particles i).active = false ∧
    (cellAt g.update.particles (i + g.width)).active = true := by
  have hi : i < g.particles.length := by omega
  have hne : i ≠ i + g.width := by
    intro he
    rw [← he, hact] at hbelow
    exact absurd hbelow (by decide)
  obtain ⟨suf, hsplit, hsuf⟩ := range_split g.particles.length i hi
  have hscan : scanIndices g.width g.height = List.range i ++ i :: suf := by
    rw [scanIndices_eq_range, ← hlen, hsplit]
  have hupd : g.update.particles
      = (scanIndices g.width g.height).foldl resetStep
          ((scanIndices g.width g.height).foldl (scanStep g.width) g.particles) := rfl
  have key : (cellAt ((scanIndices g.width g.height).foldl (scanStep g.width) g.particles) i).active = false ∧
      (cellAt ((scanIndices g.width g.height).foldl (scanStep g.width) g.particles) (i + g.width)).active = true := by
    rw [hscan, List.foldl_append, List.foldl_cons]
    set ps1 := (List.range i).foldl (scanStep g.width) g.particles with hps1
    have hlen1 : ps1.length = g.particles.length := by
      rw [hps1, foldl_scanStep_length]
    have a1 : cellAt ps1 i = cellAt g.particles i := by
      rw [hps1]
      exact foldl_scanStep_active_other g.width (List.range i) g.particles i
        (fun j hj => by have := List.mem_range.mp hj; omega) hact
    have a2 : cellAt ps1 (i + g.width) = cellAt g.particles (i + g.width) := by
      rw [hps1]
      refine foldl_scanStep_untouched g.width (List.range i) g.particles (i + g.width) ?_
      intro j hj
      have := List.mem_range.mp hj
      constructor <;> omega
    have hfire := scanStep_fires g.width ps1 i (by rw [a1]; exact hact) (by omega)
      (by rw [a2]; exact hguards _ hrow) (by rw [a1]; exact hguards _ hi)
      (by rw [a2]; exact hbelow)
    rw [hfire]
    have hii : i < ((ps1.set (i + g.width) { cellAt ps1 (i + g.width) with active := true, already_updated := true })).length := by
      simp only [List.length_set]
      omega
    have hiw : i + g.width < ps1.length := by omega
    have b1 : (cellAt ((ps1.set (i + g.width) { cellAt ps1 (i + g.width) with active := true, already_updated := true }).set i { cellAt ps1 i with active := false }) i).active = false := by
      rw [cellAt_set_self hii]
    have b2a : (cellAt ((ps1.set (i + g.width) { cellAt ps1 (i + g.width) with active := true, already_updated := true }).set i { cellAt ps1 i with active := false }) (i + g.width)).active = true := by
      rw [cellAt_set_ne _ hne, cellAt_set_self hiw]
    have b2g : (cellAt ((ps1.set (i + g.width) { cellAt ps1 (i + g.width) with active := true, already_updated := true }).set i { cellAt ps1 i with active := false }) (i + g.width)).already_updated = true := by
      rw [cellAt_set_ne _ hne, cellAt_set_self hiw]
    constructor
    · rw [foldl_scanStep_untouched g.width suf _ i ?_]
      · exact b1
      · intro j hj
        have := hsuf j hj
        constructor <;> omega
    · rw [foldl_scanStep_guarded g.width suf _ (i + g.width) b2a b2g]
      exact b2a
  rw [hupd]
  constructor
  · rw [foldl_resetStep_active]
    exact key.1
  · rw [foldl_resetStep_active]
    exact key.2

/-- Witness for C3 on the 1-by-2 grid with one particle at the top. -/
theorem update_single_fall_witness :
    (ConwayGrid.mk [⟨true, false, 255⟩, ⟨false, false, 0⟩] 1 2 []).particles.length
        = (ConwayGrid.mk [⟨true, false, 255⟩, ⟨false, false, 0⟩] 1 2 []).width
            * (ConwayGrid.mk [⟨true, false, 255⟩, ⟨false, false, 0⟩] 1 2 []).height ∧
    (cellAt (ConwayGrid.mk [⟨true, false, 255⟩, ⟨false, false, 0⟩] 1 2 []).update.particles 0).active = false ∧
    (cellAt (ConwayGrid.mk [⟨true, false, 255⟩, ⟨false, false, 0⟩] 1 2 []).update.particles (0 + (ConwayGrid.mk [⟨true, false, 255⟩, ⟨false, false, 0⟩] 1 2 []).width)).active = true := by
  refine ⟨by decide, ?_⟩
  have h := update_single_fall (ConwayGrid.mk [⟨true, false, 255⟩, ⟨false, false, 0⟩] 1 2 []) 0
    (by decide) (by decide) (by decide) (by decide) (by decide)
  exact h

/-! ### Line painting -/

theorem setActiveAt_width (g : ConwayGrid) (i : Nat) (a : Bool) :
    (setActiveAt g i a).width = g.width := rfl

theorem setActiveAt_height (g : ConwayGrid) (i : Nat) (a : Bool) :
    (setActiveAt g i a).height = g.height := rfl

/-- The in-bounds test a rasterized point must pass: exactly the success
condition of `grid_idx`. -/
def pointInBounds (w h : Nat) (p : Int × Int) : Bool :=
  decide (0 ≤ p.1 ∧ 0 ≤ p.2 ∧ p.1.toNat < w ∧ p.2.toNat < h)

theorem grid_idx_eq_pointInBounds (g : ConwayGrid) (p : Int × Int) :
    g.grid_idx p.1 p.2
      = if pointInBounds g.width g.height p then some (p.1.toNat + p.2.toNat * g.width)
        else none := by
  rw [grid_idx_eq]
  by_cases h : 0 ≤ p.1 ∧ 0 ≤ p.2 ∧ p.1.toNat < g.width ∧ p.2.toNat < g.height
  · rw [if_pos h, if_pos (by simpa [pointInBounds] using h)]
  · rw [if_neg h, if_neg (by simpa [pointInBounds] using h)]

theorem setLineLoop_eq_takeWhile (w h : Nat) (a : Bool) (pts : List (Int × Int))
    (g : ConwayGrid) (hw : g.width = w) (hh : g.height = h) :
    setLineLoop g a pts
      = (pts.takeWhile (pointInBounds w h)).foldl
          (fun gg p => setActiveAt gg (p.1.toNat + p.2.toNat * w) a) g := by
  induction pts generalizing g with
  | nil => rfl
  | cons p rest ih =>
      by_cases hin : pointInBounds w h p
      · rw [List.takeWhile_cons_of_pos hin, List.foldl_cons]
        have hidx : g.grid_idx p.1 p.2 = some (p.1.toNat + p.2.toNat * w) := by
          rw [grid_idx_eq_pointInBounds, hw, hh, if_pos hin]
        show (match g.grid_idx p.1 p.2 with
          | some i => setLineLoop (setActiveAt g i a) a rest
          | none => g)
          = _
        rw [hidx]
        exact ih (setActiveAt g (p.1.toNat + p.2.toNat * w) a) (by rw [setActiveAt_width, hw]) (by rw [setActiveAt_height, hh])
      · rw [List.takeWhile_cons_of_neg hin, List.foldl_nil]
        have hidx : g.grid_idx p.1 p.2 = none := by
          rw [grid_idx_eq_pointInBounds, hw, hh, if_neg hin]
        show (match g.grid_idx p.1 p.2 with
          | some i => setLineLoop (setActiveAt g i a) a rest
          | none => g)
          = _
        rw [hidx]

/-- C8: `set_line` clamps only the start point, to `[0, width]` and
`[0, height]` (the upper bound is the dimension itself, one past the last
valid index), leaves the end point unclamped, and then applies
`set_active` to exactly the longest prefix of the Bresenham line whose
points all resolve in bounds: rasterization stops at the first
out-of-bounds point and never resumes. -/
theorem set_line_clamped_prefix (g : ConwayGrid) (x0 y0 x1 y1 : Int) (a : Bool) :
    g.set_line x0 y0 x1 y1 a
      = ((bresenham (min (max x0 0) (g.width : Int), min (max y0 0) (g.height : Int)) (x1, y1)).takeWhile
            (pointInBounds g.width g.height)).foldl
          (fun gg p => setActiveAt gg (p.1.toNat + p.2.toNat * g.width) a) g ∧
    0 ≤ min (max x0 0) (g.width : Int) ∧ min (max x0 0) (g.width : Int) ≤ (g.width : Int) ∧
    0 ≤ min (max y0 0) (g.height : Int) ∧ min (max y0 0) (g.height : Int) ≤ (g.height : Int) := by
  refine ⟨?_, ?_, ?_, ?_, ?_⟩
  · exact setLineLoop_eq_takeWhile g.width g.height a _ g rfl rfl
  all_goals omega
